import Mathlib

/-!
Shallow embedding of the computational cells of `hex_fdm_example.ipynb`:
mesh generation, connectivity, operator assembly and the per-step solve
for the 2D heat equation on a rectangular and a hexagonal mesh.
Node index lists are carried over `ℤ` (numpy integer arrays), matrix and
vector entries over `ℚ` (the float computations, idealised to exact
rational arithmetic; the simulation constants `mu = 1e-2`, `dt = 5e-2`,
`h = 1/N` are exact rationals).
-/

namespace HexFdm

/-- `assert N%2 == 0 and N > 4` : the configuration check on the
resolution parameter, run before any mesh construction. -/
def validN (N : ℕ) : Bool := N % 2 == 0 && 4 < N

/-- `np.arange(N-1)[::2]` : even values `0, 2, 4, …` ; for even `N` this
list has `N/2` elements, the last being `N-2`. -/
def evens (N : ℕ) : List ℤ := (List.range (N / 2)).map (fun m : ℕ => 2 * (m : ℤ))

/-- `np.arange(1,N-1)[::2]` : odd values `1, 3, 5, …` ; for even `N` this
list has `(N-1)/2 = (N-2)/2` elements, the last being `N-3`. -/
def odds (N : ℕ) : List ℤ :=
  (List.range ((N - 1) / 2)).map (fun m : ℕ => 2 * (m : ℤ) + 1)

/-! ## Hexagonal-mesh connectivity (cells 5 and 6 of the notebook) -/

/-- `hex_poly_tmp`: one row per even `e`, the six corner indices of a
hexagonal cell in the first row pair. -/
def hex_poly_tmp (N : ℕ) : List (List ℤ) :=
  (evens N).map (fun e =>
    [1 + e, 1 + N + e, 1 + 2 * N + e, 2 + 2 * N + e, 2 + N + e, 2 + e])

/-- `hex_polys`: the hexagon corner lists, the first-row-pair template
shifted by `2jN` (all but the last column) and `(2j+1)N - 1` (all
columns) for each row-pair block `j < N/2 - 1`. -/
def hex_polys (N : ℕ) : List (List ℤ) :=
  (List.range (N / 2 - 1)).flatMap (fun j : ℕ =>
    (hex_poly_tmp N).dropLast.map (fun r => r.map (fun v => v + 2 * (j : ℤ) * N))
      ++ (hex_poly_tmp N).map (fun r => r.map (fun v => v + (2 * (j : ℤ) + 1) * N - 1)))

/-- `hex_bcs_left = np.arange(N)*N`. -/
def hex_bcs_left (N : ℕ) : List ℤ := (List.range N).map (fun j : ℕ => (j : ℤ) * N)

/-- `hex_bcs_right = np.arange(N)*N + N-1`. -/
def hex_bcs_right (N : ℕ) : List ℤ :=
  (List.range N).map (fun j : ℕ => (j : ℤ) * N + N - 1)

/-- `hex_bcs_bottom`: `[N+1]` followed by the groups
`(o, 1+o, 1+N+o, 2+N+o)` for odd `o`, with the final element dropped. -/
def hex_bcs_bottom (N : ℕ) : List ℤ :=
  (((N : ℤ) + 1) :: (odds N).flatMap (fun o => [o, 1 + o, 1 + N + o, 2 + N + o])).dropLast

/-- `hex_bcs_top`: the groups
`(N(N-1)+o, -N+N(N-1)+o, 1-N+N(N-1)+o, 1+N(N-1)+o)` for odd `o`. -/
def hex_bcs_top (N : ℕ) : List ℤ :=
  (odds N).flatMap (fun o =>
    [(N : ℤ) * (N - 1) + o, -(N : ℤ) + N * (N - 1) + o,
     1 - (N : ℤ) + N * (N - 1) + o, 1 + (N : ℤ) * (N - 1) + o])

/-- `hex_bcs_all = hstack((bottom, right, top[::-1], left[::-1]))`. -/
def hex_bcs_all (N : ℕ) : List ℤ :=
  hex_bcs_bottom N ++ hex_bcs_right N
    ++ (hex_bcs_top N).reverse ++ (hex_bcs_left N).reverse

/-- `hex_tmp_r`: template rows `(1+N+e, 1+2N+e, 2+2N+e, 3N+1+e)` for even `e`. -/
def hex_tmp_r (N : ℕ) : List (List ℤ) :=
  (evens N).map (fun e => [1 + N + e, 1 + 2 * N + e, 2 + 2 * N + e, 3 * N + 1 + e])

/-- `hex_stencil_r`: per block `j < N/2 - 2`, the template rows without the
last, shifted by `2jN`, then the template rows without the first, shifted
by `(2j+1)N - 1`. -/
def hex_stencil_r (N : ℕ) : List (List ℤ) :=
  (List.range (N / 2 - 2)).flatMap (fun j : ℕ =>
    (hex_tmp_r N).dropLast.map (fun r => r.map (fun v => v + 2 * (j : ℤ) * N))
      ++ ((hex_tmp_r N).drop 1).map (fun r => r.map (fun v => v + (2 * (j : ℤ) + 1) * N - 1)))

/-- `hex_tmp_l`: template rows `(N+e, -1+2N+e, 2N+e, 3N+e)` for even `e`. -/
def hex_tmp_l (N : ℕ) : List (List ℤ) :=
  (evens N).map (fun e => [(N : ℤ) + e, -1 + 2 * N + e, 2 * N + e, 3 * N + e])

/-- `hex_stencil_l`: per block `j < N/2 - 2`, the template rows without the
first, shifted by `2jN`, then the same rows shifted by `(2j+1)N - 1`. -/
def hex_stencil_l (N : ℕ) : List (List ℤ) :=
  (List.range (N / 2 - 2)).flatMap (fun j : ℕ =>
    ((hex_tmp_l N).drop 1).map (fun r => r.map (fun v => v + 2 * (j : ℤ) * N))
      ++ ((hex_tmp_l N).drop 1).map (fun r => r.map (fun v => v + (2 * (j : ℤ) + 1) * N - 1)))

/-- `hex_centr = hstack((hex_stencil_r[:,2], hex_stencil_l[:,1]))`. -/
def hex_centr (N : ℕ) : List ℤ :=
  (hex_stencil_r N).map (fun r => r.getD 2 0)
    ++ (hex_stencil_l N).map (fun r => r.getD 1 0)

/-! ## Rectangular-mesh connectivity (cell 7 of the notebook) -/

/-- `rect_centr = hstack(jdx*N + idx)` over `idx, jdx ∈ arange(1,N-1)`,
row-major (`jdx` outer). -/
def rect_centr (N : ℕ) : List ℤ :=
  (List.range (N - 2)).flatMap (fun j : ℕ =>
    (List.range (N - 2)).map (fun i : ℕ => ((j : ℤ) + 1) * N + ((i : ℤ) + 1)))

/-- `rect_stencil = hstack((c-N, c-1, c, c+1, c+N))` per center `c`. -/
def rect_stencil (N : ℕ) : List (List ℤ) :=
  (rect_centr N).map (fun c => [c - N, c - 1, c, c + 1, c + N])

/-- `rect_bcs_bottom = np.arange(N)`. -/
def rect_bcs_bottom (N : ℕ) : List ℤ := (List.range N).map (fun i : ℕ => (i : ℤ))

/-- `rect_bcs_top = (N-1)*N + np.arange(N)`. -/
def rect_bcs_top (N : ℕ) : List ℤ :=
  (List.range N).map (fun i : ℕ => ((N : ℤ) - 1) * N + i)

/-- `rect_bcs_left = np.arange(1,N-1)*N`. -/
def rect_bcs_left (N : ℕ) : List ℤ :=
  (List.range (N - 2)).map (fun j : ℕ => ((j : ℤ) + 1) * N)

/-- `rect_bcs_right = np.arange(1,N-1)*N + N-1`. -/
def rect_bcs_right (N : ℕ) : List ℤ :=
  (List.range (N - 2)).map (fun j : ℕ => ((j : ℤ) + 1) * N + (N - 1))

/-- `rect_bcs_all = hstack((bottom, right, top[::-1], left[::-1]))`. -/
def rect_bcs_all (N : ℕ) : List ℤ :=
  rect_bcs_bottom N ++ rect_bcs_right N
    ++ (rect_bcs_top N).reverse ++ (rect_bcs_left N).reverse

/-- `rect_polys`: quadrilateral corner lists
`(jN+i, jN+i+1, (j+1)N+i+1, (j+1)N+i)`; the numpy `.T`-then-`vstack`
iterates `i` in the outer loop. -/
def rect_polys (N : ℕ) : List (List ℤ) :=
  (List.range (N - 1)).flatMap (fun i : ℕ =>
    (List.range (N - 1)).map (fun j : ℕ =>
      [(j : ℤ) * N + i, (j : ℤ) * N + i + 1,
       ((j : ℤ) + 1) * N + i + 1, ((j : ℤ) + 1) * N + i]))

/-! ## Mesh coordinates (cells 5 and 7 of the notebook) -/

/-- `hhat = 1.0 / N`. -/
def hhat (N : ℕ) : ℚ := 1 / N

/-- `off_x = 0.5 * hhat`. -/
def off_x (N : ℕ) : ℚ := hhat N / 2

/-- `short_x = hhat`. -/
def short_x (N : ℕ) : ℚ := hhat N

/-- `long_x = 2.0 * hhat`. -/
def long_x (N : ℕ) : ℚ := 2 * hhat N

/-- `initoff = np.where(jdx % 2 == 1, 1, 0)`. -/
def initoff (j : ℕ) : ℕ := if j % 2 = 1 then 1 else 0

/-- `shortoff = np.where((idx+1) % 2 == jdx % 2, 1, 0)` (as a Bool). -/
def shortoff (j i : ℕ) : Bool := (i + 1) % 2 == j % 2

/-- The horizontal spacing `short_x * shortoff + long_x * (1 - shortoff)`
between columns `i` and `i+1` of row `j`. -/
def hex_dx (N j i : ℕ) : ℚ := if shortoff j i then short_x N else long_x N

/-- Row-wise cumulative sum
`hex_x = np.hstack((initoff*off_x, hex_x)).cumsum(axis=1)` :
the pre-normalisation x coordinate of node `(j, i)`. -/
def hex_x_pre (N j : ℕ) : ℕ → ℚ
  | 0 => (initoff j : ℚ) * off_x N
  | i + 1 => hex_x_pre N j i + hex_dx N j i

/-- All `N²` pre-normalisation x values, row-major. -/
def hex_x_vals (N : ℕ) : List ℚ :=
  (List.range N).flatMap (fun j : ℕ => (List.range N).map (fun i : ℕ => hex_x_pre N j i))

/-- `hex_x.max()` (as a fold; all entries are nonnegative). -/
def hex_x_max (N : ℕ) : ℚ := (hex_x_vals N).foldr max 0

/-- `hex_x = hex_x / hex_x.max()` : normalised x coordinate of node `k`,
with `j = k / N`, `i = k % N` (row-major numbering). -/
def hex_xc (N k : ℕ) : ℚ := hex_x_pre N (k / N) (k % N) / hex_x_max N

/-- `hex_y = off_y * jdx` with `off_y = hhat*√3/2`; the constant positive
factor `off_y` cancels in the normalisation `hex_y / hex_y.max()`, so the
pre-normalisation y coordinate is carried in units of `off_y`. -/
def hex_y_pre (j : ℕ) : ℚ := j

/-- All `N²` pre-normalisation y values (in units of `off_y`), row-major. -/
def hex_y_vals (N : ℕ) : List ℚ :=
  (List.range N).flatMap (fun j : ℕ => (List.range N).map (fun _ : ℕ => hex_y_pre j))

/-- `hex_y.max()` (in units of `off_y`). -/
def hex_y_max (N : ℕ) : ℚ := (hex_y_vals N).foldr max 0

/-- `hex_y = hex_y / hex_y.max()` : normalised y coordinate of node `k`. -/
def hex_yc (N k : ℕ) : ℚ := hex_y_pre (k / N) / hex_y_max N

/-- `np.linspace(0,1,N)[i] = i/(N-1)`; after `meshgrid`+`hstack`, node
`k = j*N+i` has x coordinate `(k % N)/(N-1)`. -/
def rect_xc (N k : ℕ) : ℚ := ((k % N : ℕ) : ℚ) / ((N : ℚ) - 1)

/-- Node `k = j*N+i` has y coordinate `(k / N)/(N-1)`. -/
def rect_yc (N k : ℕ) : ℚ := ((k / N : ℕ) : ℚ) / ((N : ℚ) - 1)

/-! ## Operator assembly (cell 8 of the notebook) -/

/-- `N2 = N*N`. -/
def N2 (N : ℕ) : ℕ := N * N

/-- `dt = 5e-2`. -/
def dt : ℚ := 5 / 100

/-- `mu = 1e-2`. -/
def mu : ℚ := 1 / 100

/-- `h = 1.0 / N`. -/
def hstep (N : ℕ) : ℚ := 1 / N

/-- `rect_I_bc`: unit entry at `(k, rect_bcs_all[k])` for each boundary
position `k` (csr with one entry per row). -/
def rect_I_bc (N : ℕ) (r c : ℕ) : ℚ :=
  if r < (rect_bcs_all N).length ∧ (rect_bcs_all N).getD r 0 = (c : ℤ) then 1 else 0

/-- `rect_elmt`: the tiled 5-coefficient pattern
`[mu/h², mu/h², -1/dt - 4mu/h², mu/h², mu/h²]`. -/
def rect_elmt (N : ℕ) : List ℚ :=
  [mu / (hstep N) ^ 2, mu / (hstep N) ^ 2, -1 / dt - mu * 4 / (hstep N) ^ 2,
   mu / (hstep N) ^ 2, mu / (hstep N) ^ 2]

/-- `rect_A`: stencil row `m` (at matrix row `len(rect_bcs_all) + m`) places
`rect_elmt[p]` at column `rect_stencil[m][p]`; csr sums coincident entries. -/
def rect_A (N : ℕ) (r c : ℕ) : ℚ :=
  if (rect_bcs_all N).length ≤ r ∧
      r - (rect_bcs_all N).length < (rect_stencil N).length then
    (((List.range 5).map (fun p =>
      if ((rect_stencil N).getD (r - (rect_bcs_all N).length) []).getD p 0 = (c : ℤ)
      then (rect_elmt N).getD p 0 else 0)).sum)
  else 0

/-- `rect_M = rect_I_bc + rect_A`. -/
def rect_M (N : ℕ) (r c : ℕ) : ℚ := rect_I_bc N r c + rect_A N r c

/-- `hex_I_bc`: unit entry at `(k, hex_bcs_all[k])` for each boundary
position `k`. -/
def hex_I_bc (N : ℕ) (r c : ℕ) : ℚ :=
  if r < (hex_bcs_all N).length ∧ (hex_bcs_all N).getD r 0 = (c : ℤ) then 1 else 0

/-- `hex_elmt_r`: the tiled right-family pattern
`[4mu/(3h²), -4mu/h² - 1/dt, 4mu/(3h²), 4mu/(3h²)]`. -/
def hex_elmt_r (N : ℕ) : List ℚ :=
  [mu * 4 / (3 * (hstep N) ^ 2), -(mu * 4) / (hstep N) ^ 2 - 1 / dt,
   mu * 4 / (3 * (hstep N) ^ 2), mu * 4 / (3 * (hstep N) ^ 2)]

/-- `hex_elmt_l`: the tiled left-family pattern
`[4mu/(3h²), 4mu/(3h²), -4mu/h² - 1/dt, 4mu/(3h²)]`. -/
def hex_elmt_l (N : ℕ) : List ℚ :=
  [mu * 4 / (3 * (hstep N) ^ 2), mu * 4 / (3 * (hstep N) ^ 2),
   -(mu * 4) / (hstep N) ^ 2 - 1 / dt, mu * 4 / (3 * (hstep N) ^ 2)]

/-- `hex_A_r`: right-family stencil row `m` sits at matrix row
`len(hex_bcs_all) + m`. -/
def hex_A_r (N : ℕ) (r c : ℕ) : ℚ :=
  if (hex_bcs_all N).length ≤ r ∧
      r - (hex_bcs_all N).length < (hex_stencil_r N).length then
    (((List.range 4).map (fun p =>
      if ((hex_stencil_r N).getD (r - (hex_bcs_all N).length) []).getD p 0 = (c : ℤ)
      then (hex_elmt_r N).getD p 0 else 0)).sum)
  else 0

/-- `hex_A_l`: left-family stencil row `m` sits at matrix row
`len(hex_bcs_all) + len(hex_stencil_r) + m`. -/
def hex_A_l (N : ℕ) (r c : ℕ) : ℚ :=
  if (hex_bcs_all N).length + (hex_stencil_r N).length ≤ r ∧
      r - ((hex_bcs_all N).length + (hex_stencil_r N).length) < (hex_stencil_l N).length then
    (((List.range 4).map (fun p =>
      if ((hex_stencil_l N).getD
            (r - ((hex_bcs_all N).length + (hex_stencil_r N).length)) []).getD p 0 = (c : ℤ)
      then (hex_elmt_l N).getD p 0 else 0)).sum)
  else 0

/-- `hex_M = hex_I_bc + hex_A_r + hex_A_l`. -/
def hex_M (N : ℕ) (r c : ℕ) : ℚ := hex_I_bc N r c + hex_A_r N r c + hex_A_l N r c

/-! ## Right-hand side and the per-step solve (cells 8 and 11) -/

/-- `rect_rhs`: zeros, with row `k < len(rect_bcs_all)` set to
`exact_u(0, rect_x[rect_bcs_all[k]], rect_y[rect_bcs_all[k]])`.  The
exact-solution oracle is a configuration input (spec section 6), so it is a
parameter `f`. -/
def rect_rhs0 (f : ℚ → ℚ → ℚ → ℚ) (N k : ℕ) : ℚ :=
  if k < (rect_bcs_all N).length then
    f 0 (rect_xc N ((rect_bcs_all N).getD k 0).toNat)
        (rect_yc N ((rect_bcs_all N).getD k 0).toNat)
  else 0

/-- `hex_rhs`: zeros, with boundary rows set from the oracle at `t = 0`. -/
def hex_rhs0 (f : ℚ → ℚ → ℚ → ℚ) (N k : ℕ) : ℚ :=
  if k < (hex_bcs_all N).length then
    f 0 (hex_xc N ((hex_bcs_all N).getD k 0).toNat)
        (hex_yc N ((hex_bcs_all N).getD k 0).toNat)
  else 0

/-- The mutation of `rect_rhs` performed by one `drawstep` call at current
time `t` with current solution `u`: boundary rows from the oracle at `t`,
bulk rows `-u[rect_centr]/dt`, remaining rows (there are none for valid N)
unchanged from `prev`. -/
def rect_rhs_step (f : ℚ → ℚ → ℚ → ℚ) (N : ℕ) (t : ℚ) (u prev : ℕ → ℚ) (k : ℕ) : ℚ :=
  if k < (rect_bcs_all N).length then
    f t (rect_xc N ((rect_bcs_all N).getD k 0).toNat)
        (rect_yc N ((rect_bcs_all N).getD k 0).toNat)
  else if k < (rect_bcs_all N).length + (rect_centr N).length then
    -u ((rect_centr N).getD (k - (rect_bcs_all N).length) 0).toNat / dt
  else prev k

/-- The mutation of `hex_rhs` performed by one `drawstep` call. -/
def hex_rhs_step (f : ℚ → ℚ → ℚ → ℚ) (N : ℕ) (t : ℚ) (u prev : ℕ → ℚ) (k : ℕ) : ℚ :=
  if k < (hex_bcs_all N).length then
    f t (hex_xc N ((hex_bcs_all N).getD k 0).toNat)
        (hex_yc N ((hex_bcs_all N).getD k 0).toNat)
  else if k < (hex_bcs_all N).length + (hex_centr N).length then
    -u ((hex_centr N).getD (k - (hex_bcs_all N).length) 0).toNat / dt
  else prev k

/-- Row `r` of `M` dotted with `u` over the `N²` columns. -/
def rowDot (N : ℕ) (M : ℕ → ℕ → ℚ) (r : ℕ) (u : ℕ → ℚ) : ℚ :=
  ∑ c ∈ Finset.range (N2 N), M r c * u c

/-- `u` solves the `N² × N²` system `M·u = b`
(`scipy.sparse.linalg.spsolve` returns such a vector when it succeeds). -/
def IsSolution (N : ℕ) (M : ℕ → ℕ → ℚ) (b u : ℕ → ℚ) : Prop :=
  ∀ r < N2 N, rowDot N M r u = b r

/-! ## Theorems -/

/-- C9: the configuration check `assert N%2 == 0 and N > 4` accepts `N = 6`
and rejects `N = 5`, `N = 4`, every odd `N` and every `N ≤ 4`. -/
theorem C9_validN_check :
    validN 6 = true ∧ validN 5 = false ∧ validN 4 = false ∧
    (∀ n : ℕ, n % 2 = 1 → validN n = false) ∧
    (∀ n : ℕ, n ≤ 4 → validN n = false) := by
  refine ⟨rfl, rfl, rfl, ?_, ?_⟩
  · intro n hn
    have h2 : n % 2 ≠ 0 := by omega
    simp [validN, h2]
  · intro n hn
    have h4 : ¬ 4 < n := by omega
    simp [validN, h4]

theorem C9_validN_check_witness :
    (9 % 2 = 1 ∧ validN 9 = false) ∧ (3 ≤ 4 ∧ validN 3 = false) :=
  ⟨⟨by decide, C9_validN_check.2.2.2.1 9 (by decide)⟩,
   ⟨by decide, C9_validN_check.2.2.2.2 3 (by decide)⟩⟩

/-- C1: at `N = 6` the hexagonal boundary list and stencil-center list do
not partition the node index set: node `18 = 3N` occurs in both
`hex_bcs_all` and `hex_centr`, and interior node `19 = 3N+1` occurs in
neither. -/
theorem C1_hex_partition_fails_at_N6 :
    ((18 : ℤ) ∈ hex_bcs_all 6 ∧ (18 : ℤ) ∈ hex_centr 6) ∧
    ((19 : ℤ) ∉ hex_bcs_all 6 ∧ (19 : ℤ) ∉ hex_centr 6) := by decide

/-- The center columns matching the diagonal coefficient positions of
`hex_elmt_r` and `hex_elmt_l` (position 1 for the right family, position 2
for the left family); contrast with `hex_centr`, which reads columns 2
and 1. -/
def hex_centr_diag (N : ℕ) : List ℤ :=
  (hex_stencil_r N).map (fun r => r.getD 1 0)
    ++ (hex_stencil_l N).map (fun r => r.getD 2 0)

/-- With the diagonal-position centers the boundary list and center list
are duplicate-free and partition all 36 node indices at `N = 6` (showing
the partition invariant is the evident intent of the construction, and
`hex_centr`'s column choice the slip). -/
theorem hex_diag_centers_partition_at_N6 :
    (hex_bcs_all 6 ++ hex_centr_diag 6).dedup.length = 36 ∧
    (hex_bcs_all 6).length + (hex_centr_diag 6).length = 36 ∧
    (∀ v ∈ hex_bcs_all 6 ++ hex_centr_diag 6, 0 ≤ v ∧ v < 36) := by decide

/-- C2 counterexample: at `N = 8` the right- and left-family stencil row
counts agree but equal `12 = (N/2-2)*(N-2)`, not `(N/2-2)*(N-1) = 14`. -/
theorem C2_count_formula_fails_at_N8 :
    (hex_stencil_r 8).length = (hex_stencil_l 8).length ∧
    (hex_stencil_r 8).length ≠ (8 / 2 - 2) * (8 - 1) := by decide

/-- C2 (amended): at `N = 8` both stencil-family row counts equal
`(N/2-2)*(N-2) = 12`, and the number of distinct stencil-center indices
plus the boundary-list length equals `64`. -/
theorem C2_stencil_counts_at_N8 :
    (hex_stencil_r 8).length = (8 / 2 - 2) * (8 - 2) ∧
    (hex_stencil_l 8).length = (8 / 2 - 2) * (8 - 2) ∧
    (hex_centr 8).dedup.length + (hex_bcs_all 8).length = 64 := by decide

/-! ## Helper lemmas: lengths and list access -/

theorem length_flatMap_const {α β : Type} (l : List α) (f : α → List β) (k : ℕ)
    (h : ∀ a, (f a).length = k) : (l.flatMap f).length = l.length * k := by
  induction l with
  | nil => simp
  | cons a l ih => simp [List.flatMap_cons, ih, h, Nat.succ_mul]; omega

theorem getD_mem_of_lt {α : Type} {l : List α} {n : ℕ} (d : α) (h : n < l.length) :
    l.getD n d ∈ l := by
  rw [List.getD_eq_getElem l d h]; exact List.getElem_mem h

theorem length_evens (N : ℕ) : (evens N).length = N / 2 := by simp [evens]

theorem length_odds (N : ℕ) : (odds N).length = (N - 1) / 2 := by simp [odds]

theorem length_hex_bcs_bottom (N : ℕ) :
    (hex_bcs_bottom N).length = 4 * ((N - 1) / 2) := by
  have h : ((odds N).flatMap
      (fun o => [o, 1 + o, 1 + (N : ℤ) + o, 2 + N + o])).length = (odds N).length * 4 :=
    length_flatMap_const _ _ 4 (fun _ => rfl)
  simp [hex_bcs_bottom, List.length_dropLast, h, length_odds]
  omega

theorem length_hex_bcs_top (N : ℕ) :
    (hex_bcs_top N).length = 4 * ((N - 1) / 2) := by
  have h := length_flatMap_const (odds N)
    (fun o => [(N : ℤ) * (N - 1) + o, -(N : ℤ) + N * (N - 1) + o,
               1 - (N : ℤ) + N * (N - 1) + o, 1 + (N : ℤ) * (N - 1) + o]) 4 (fun _ => rfl)
  simp [hex_bcs_top, h, length_odds]
  omega

theorem length_hex_bcs_all {N : ℕ} (h2 : N % 2 = 0) (h4 : 4 < N) :
    (hex_bcs_all N).length = 6 * N - 8 := by
  simp [hex_bcs_all, length_hex_bcs_bottom, length_hex_bcs_top,
    hex_bcs_left, hex_bcs_right]
  omega

theorem length_hex_tmp_r (N : ℕ) : (hex_tmp_r N).length = N / 2 := by
  simp [hex_tmp_r, length_evens]

theorem length_hex_tmp_l (N : ℕ) : (hex_tmp_l N).length = N / 2 := by
  simp [hex_tmp_l, length_evens]

theorem length_hex_stencil_r {N : ℕ} (h2 : N % 2 = 0) (h4 : 4 < N) :
    (hex_stencil_r N).length = (N / 2 - 2) * (N - 2) := by
  have h := length_flatMap_const (List.range (N / 2 - 2))
    (fun j => (hex_tmp_r N).dropLast.map (fun r => r.map (fun v => v + 2 * (j : ℤ) * N))
      ++ ((hex_tmp_r N).drop 1).map (fun r => r.map (fun v => v + (2 * (j : ℤ) + 1) * N - 1)))
    (N - 2) (fun j => by
      simp [List.length_dropLast, length_hex_tmp_r]
      omega)
  simp [hex_stencil_r] at h ⊢
  rw [h]

theorem length_hex_stencil_l {N : ℕ} (h2 : N % 2 = 0) (h4 : 4 < N) :
    (hex_stencil_l N).length = (N / 2 - 2) * (N - 2) := by
  have h := length_flatMap_const (List.range (N / 2 - 2))
    (fun j => ((hex_tmp_l N).drop 1).map (fun r => r.map (fun v => v + 2 * (j : ℤ) * N))
      ++ ((hex_tmp_l N).drop 1).map (fun r => r.map (fun v => v + (2 * (j : ℤ) + 1) * N - 1)))
    (N - 2) (fun j => by
      simp [length_hex_tmp_l]
      omega)
  simp [hex_stencil_l] at h ⊢
  rw [h]

theorem length_rect_bcs_all {N : ℕ} (h4 : 4 < N) :
    (rect_bcs_all N).length = 4 * N - 4 := by
  simp [rect_bcs_all, rect_bcs_bottom, rect_bcs_top, rect_bcs_left, rect_bcs_right]
  omega

theorem length_rect_centr (N : ℕ) : (rect_centr N).length = (N - 2) * (N - 2) := by
  have h := length_flatMap_const (List.range (N - 2))
    (fun j : ℕ => (List.range (N - 2)).map (fun i : ℕ => ((j : ℤ) + 1) * N + ((i : ℤ) + 1)))
    (N - 2) (fun j => by simp)
  simp [rect_centr] at h ⊢
  rw [h]

theorem length_rect_stencil (N : ℕ) :
    (rect_stencil N).length = (N - 2) * (N - 2) := by
  simp [rect_stencil, length_rect_centr]

/-- C6: in the hexagonal mesh generator the horizontal spacing between
consecutive nodes of a row is the short unit exactly when
`(i+1) % 2 == j % 2`, the long unit (twice the short unit) otherwise, and
odd rows start offset by half a short unit while even rows start at 0. -/
theorem C6_hex_spacing_parity (N : ℕ) (_hN : validN N = true) :
    (∀ j < N, ∀ i < N - 1,
      hex_x_pre N j (i + 1) - hex_x_pre N j i =
        (if (i + 1) % 2 = j % 2 then short_x N else long_x N)) ∧
    long_x N = 2 * short_x N ∧
    (∀ j < N, j % 2 = 1 → hex_x_pre N j 0 = short_x N / 2) ∧
    (∀ j < N, j % 2 = 0 → hex_x_pre N j 0 = 0) := by
  refine ⟨?_, rfl, ?_, ?_⟩
  · intro j _ i _
    simp only [hex_x_pre, hex_dx, shortoff, add_sub_cancel_left, beq_iff_eq]
  · intro j _ hj
    simp [hex_x_pre, initoff, hj, off_x, short_x]
  · intro j _ hj
    have : j % 2 ≠ 1 := by omega
    simp [hex_x_pre, initoff, this]

theorem C6_hex_spacing_parity_witness :
    validN 6 = true ∧
    hex_x_pre 6 1 1 - hex_x_pre 6 1 0 = short_x 6 ∧
    hex_x_pre 6 0 1 - hex_x_pre 6 0 0 = long_x 6 ∧
    hex_x_pre 6 1 0 = short_x 6 / 2 ∧ hex_x_pre 6 0 0 = 0 := by
  refine ⟨by decide, ?_, ?_, ?_, ?_⟩
  · have h := (C6_hex_spacing_parity 6 (by decide)).1 1 (by decide) 0 (by decide)
    simpa using h
  · have h := (C6_hex_spacing_parity 6 (by decide)).1 0 (by decide) 0 (by decide)
    simpa using h
  · exact (C6_hex_spacing_parity 6 (by decide)).2.2.1 1 (by decide) rfl
  · exact (C6_hex_spacing_parity 6 (by decide)).2.2.2 0 (by decide) rfl

/-! ## Index bounds of the connectivity artifacts -/

theorem five_mul_le_sq {N : ℕ} (h4 : 4 < N) : 5 * (N : ℤ) ≤ (N : ℤ) * N := by
  have h5 : (5 : ℤ) ≤ (N : ℤ) := by exact_mod_cast h4
  have h0 : (0 : ℤ) ≤ (N : ℤ) := by positivity
  exact mul_le_mul_of_nonneg_right h5 h0

theorem hex_bcs_all_bounds {N : ℕ} (h4 : 4 < N) :
    ∀ v ∈ hex_bcs_all N, 0 ≤ v ∧ v < (N : ℤ) * N := by
  have h5N := five_mul_le_sq h4
  have h0 : (0 : ℤ) ≤ (N : ℤ) := by positivity
  intro v hv
  simp only [hex_bcs_all, List.mem_append, List.mem_reverse] at hv
  rcases hv with ((hb | hr) | ht) | hl
  · have hb' := List.mem_of_mem_dropLast hb
    simp only [hex_bcs_bottom, odds, List.mem_cons, List.mem_flatMap, List.mem_map,
      List.mem_range] at hb'
    rcases hb' with rfl | ⟨o, ⟨m, hm, rfl⟩, ho⟩
    · refine ⟨by omega, by linarith⟩
    · simp only [List.mem_cons, List.not_mem_nil, or_false] at ho
      have hvb : 0 ≤ v ∧ v ≤ 2 * (N : ℤ) + 1 := by
        rcases ho with rfl | rfl | rfl | rfl <;> constructor <;> omega
      exact ⟨hvb.1, by linarith [hvb.2]⟩
  · simp only [hex_bcs_right, List.mem_map, List.mem_range] at hr
    rcases hr with ⟨j, hj, rfl⟩
    have hjN : (j : ℤ) * N ≤ ((N : ℤ) - 1) * N :=
      mul_le_mul_of_nonneg_right (by omega) h0
    have hid : ((N : ℤ) - 1) * N = (N : ℤ) * N - N := by ring
    have hj0 : (0 : ℤ) ≤ (j : ℤ) * N := mul_nonneg (by positivity) h0
    refine ⟨by omega, by linarith⟩
  · simp only [hex_bcs_top, odds, List.mem_flatMap, List.mem_map, List.mem_range] at ht
    rcases ht with ⟨o, ⟨m, hm, rfl⟩, ho⟩
    simp only [List.mem_cons, List.not_mem_nil, or_false] at ho
    have hid : (N : ℤ) * ((N : ℤ) - 1) = (N : ℤ) * N - N := by ring
    have hvb : (N : ℤ) * N - 2 * N + 1 ≤ v ∧ v ≤ (N : ℤ) * N - N + 2 * N - 4 + 2 := by
      rcases ho with rfl | rfl | rfl | rfl <;> constructor <;> omega
    refine ⟨by linarith [hvb.1], by omega⟩
  · simp only [hex_bcs_left, List.mem_map, List.mem_range] at hl
    rcases hl with ⟨j, hj, rfl⟩
    have hjN : (j : ℤ) * N ≤ ((N : ℤ) - 1) * N :=
      mul_le_mul_of_nonneg_right (by omega) h0
    have hid : ((N : ℤ) - 1) * N = (N : ℤ) * N - N := by ring
    have hj0 : (0 : ℤ) ≤ (j : ℤ) * N := mul_nonneg (by positivity) h0
    refine ⟨hj0, by linarith⟩

theorem rect_bcs_all_bounds {N : ℕ} (h4 : 4 < N) :
    ∀ v ∈ rect_bcs_all N, 0 ≤ v ∧ v < (N : ℤ) * N := by
  have h5N := five_mul_le_sq h4
  have h0 : (0 : ℤ) ≤ (N : ℤ) := by positivity
  intro v hv
  simp only [rect_bcs_all, List.mem_append, List.mem_reverse] at hv
  rcases hv with ((hb | hr) | ht) | hl
  · simp only [rect_bcs_bottom, List.mem_map, List.mem_range] at hb
    rcases hb with ⟨i, hi, rfl⟩
    refine ⟨by positivity, by omega⟩
  · simp only [rect_bcs_right, List.mem_map, List.mem_range] at hr
    rcases hr with ⟨j, hj, rfl⟩
    have hjN : ((j : ℤ) + 1) * N ≤ ((N : ℤ) - 2) * N :=
      mul_le_mul_of_nonneg_right (by omega) h0
    have hid : ((N : ℤ) - 2) * N = (N : ℤ) * N - 2 * N := by ring
    have hj0 : (0 : ℤ) ≤ ((j : ℤ) + 1) * N := mul_nonneg (by positivity) h0
    refine ⟨by omega, by omega⟩
  · simp only [rect_bcs_top, List.mem_map, List.mem_range] at ht
    rcases ht with ⟨i, hi, rfl⟩
    have hid : ((N : ℤ) - 1) * N = (N : ℤ) * N - N := by ring
    refine ⟨by omega, by omega⟩
  · simp only [rect_bcs_left, List.mem_map, List.mem_range] at hl
    rcases hl with ⟨j, hj, rfl⟩
    have hjN : ((j : ℤ) + 1) * N ≤ ((N : ℤ) - 2) * N :=
      mul_le_mul_of_nonneg_right (by omega) h0
    have hid : ((N : ℤ) - 2) * N = (N : ℤ) * N - 2 * N := by ring
    have hj0 : (0 : ℤ) ≤ ((j : ℤ) + 1) * N := mul_nonneg (by positivity) h0
    refine ⟨hj0, by omega⟩

/-- Every right-family stencil row is `[q, q+N, q+N+1, q+2N]` for some
in-range base `q`: the row's second entry is the vertical neighbour column
of `q`, i.e. the geometric stencil center. -/
theorem hex_stencil_r_shape {N : ℕ} (h2 : N % 2 = 0) (h4 : 4 < N) :
    ∀ r ∈ hex_stencil_r N, ∃ q : ℤ,
      r = [q, q + N, q + N + 1, q + 2 * N] ∧ 1 ≤ q ∧ q + 2 * N < (N : ℤ) * N := by
  intro r hr
  simp only [hex_stencil_r, List.mem_flatMap, List.mem_range, List.mem_append,
    List.mem_map] at hr
  obtain ⟨j, hj, hblk⟩ := hr
  have h0 : (0 : ℤ) ≤ (N : ℤ) := by positivity
  rcases hblk with ⟨r0, hr0, rfl⟩ | ⟨r0, hr0, rfl⟩
  · replace hr0 := List.dropLast_subset _ hr0
    simp only [hex_tmp_r, evens, List.mem_map, List.mem_range] at hr0
    obtain ⟨e, ⟨a, ha, rfl⟩, rfl⟩ := hr0
    refine ⟨1 + N + 2 * a + 2 * j * N, ?_, ?_, ?_⟩
    · simp only [List.map_cons, List.map_nil, List.cons.injEq, and_true]
      refine ⟨by ring, by ring, by ring, by ring⟩
    · have := mul_nonneg (show (0:ℤ) ≤ 2 * j by positivity) h0
      omega
    · have hq : 2 * (j : ℤ) * N ≤ ((N : ℤ) - 6) * N := by
        have h' : 2 * (j : ℤ) ≤ (N : ℤ) - 6 := by omega
        calc 2 * (j : ℤ) * N = (2 * (j : ℤ)) * N := by ring
          _ ≤ ((N : ℤ) - 6) * N := mul_le_mul_of_nonneg_right h' h0
      have hid : ((N : ℤ) - 6) * N = (N : ℤ) * N - 6 * N := by ring
      omega
  · replace hr0 := List.drop_subset _ _ hr0
    simp only [hex_tmp_r, evens, List.mem_map, List.mem_range] at hr0
    obtain ⟨e, ⟨a, ha, rfl⟩, rfl⟩ := hr0
    refine ⟨1 + N + 2 * a + ((2 * j + 1) * N - 1), ?_, ?_, ?_⟩
    · simp only [List.map_cons, List.map_nil, List.cons.injEq, and_true]
      refine ⟨by ring, by ring, by ring, by ring⟩
    · have := mul_nonneg (show (0:ℤ) ≤ 2 * j + 1 by positivity) h0
      omega
    · have hq : (2 * (j : ℤ) + 1) * N ≤ ((N : ℤ) - 5) * N :=
        mul_le_mul_of_nonneg_right (by omega) h0
      have hid : ((N : ℤ) - 5) * N = (N : ℤ) * N - 5 * N := by ring
      omega

/-- Every left-family stencil row is `[q, q+N-1, q+N, q+2N]` for some
in-range base `q`: the row's third entry is the vertical neighbour column
of `q`, i.e. the geometric stencil center. -/
theorem hex_stencil_l_shape {N : ℕ} (h2 : N % 2 = 0) (h4 : 4 < N) :
    ∀ r ∈ hex_stencil_l N, ∃ q : ℤ,
      r = [q, q + N - 1, q + N, q + 2 * N] ∧ 1 ≤ q ∧ q + 2 * N < (N : ℤ) * N := by
  intro r hr
  simp only [hex_stencil_l, List.mem_flatMap, List.mem_range, List.mem_append,
    List.mem_map] at hr
  obtain ⟨j, hj, hblk⟩ := hr
  have h0 : (0 : ℤ) ≤ (N : ℤ) := by positivity
  rcases hblk with ⟨r0, hr0, rfl⟩ | ⟨r0, hr0, rfl⟩
  · replace hr0 := List.drop_subset _ _ hr0
    simp only [hex_tmp_l, evens, List.mem_map, List.mem_range] at hr0
    obtain ⟨e, ⟨a, ha, rfl⟩, rfl⟩ := hr0
    refine ⟨(N : ℤ) + 2 * a + 2 * j * N, ?_, ?_, ?_⟩
    · simp only [List.map_cons, List.map_nil, List.cons.injEq, and_true]
      refine ⟨by ring, by ring, by ring, by ring⟩
    · have := mul_nonneg (show (0:ℤ) ≤ 2 * j by positivity) h0
      omega
    · have hq : 2 * (j : ℤ) * N ≤ ((N : ℤ) - 6) * N := by
        have h' : 2 * (j : ℤ) ≤ (N : ℤ) - 6 := by omega
        calc 2 * (j : ℤ) * N = (2 * (j : ℤ)) * N := by ring
          _ ≤ ((N : ℤ) - 6) * N := mul_le_mul_of_nonneg_right h' h0
      have hid : ((N : ℤ) - 6) * N = (N : ℤ) * N - 6 * N := by ring
      omega
  · replace hr0 := List.drop_subset _ _ hr0
    simp only [hex_tmp_l, evens, List.mem_map, List.mem_range] at hr0
    obtain ⟨e, ⟨a, ha, rfl⟩, rfl⟩ := hr0
    refine ⟨(N : ℤ) + 2 * a + ((2 * j + 1) * N - 1), ?_, ?_, ?_⟩
    · simp only [List.map_cons, List.map_nil, List.cons.injEq, and_true]
      refine ⟨by ring, by ring, by ring, by ring⟩
    · have := mul_nonneg (show (0:ℤ) ≤ 2 * j + 1 by positivity) h0
      omega
    · have hq : (2 * (j : ℤ) + 1) * N ≤ ((N : ℤ) - 5) * N :=
        mul_le_mul_of_nonneg_right (by omega) h0
      have hid : ((N : ℤ) - 5) * N = (N : ℤ) * N - 5 * N := by ring
      omega

theorem hex_polys_bounds {N : ℕ} (h2 : N % 2 = 0) (h4 : 4 < N) :
    ∀ r ∈ hex_polys N, ∀ v ∈ r, 0 ≤ v ∧ v < (N : ℤ) * N := by
  intro r hr
  simp only [hex_polys, List.mem_flatMap, List.mem_range, List.mem_append,
    List.mem_map] at hr
  obtain ⟨j, hj, hblk⟩ := hr
  have h0 : (0 : ℤ) ≤ (N : ℤ) := by positivity
  rcases hblk with ⟨r0, hr0, rfl⟩ | ⟨r0, hr0, rfl⟩
  · replace hr0 := List.dropLast_subset _ hr0
    simp only [hex_poly_tmp, evens, List.mem_map, List.mem_range] at hr0
    obtain ⟨e, ⟨a, ha, rfl⟩, rfl⟩ := hr0
    intro v hv
    have hjpos := mul_nonneg (show (0:ℤ) ≤ 2 * j by positivity) h0
    have hq : 2 * (j : ℤ) * N ≤ ((N : ℤ) - 4) * N := by
      have h' : 2 * (j : ℤ) ≤ (N : ℤ) - 4 := by omega
      calc 2 * (j : ℤ) * N = (2 * (j : ℤ)) * N := by ring
        _ ≤ ((N : ℤ) - 4) * N := mul_le_mul_of_nonneg_right h' h0
    have hid : ((N : ℤ) - 4) * N = (N : ℤ) * N - 4 * N := by ring
    simp only [List.mem_map, List.mem_cons, List.not_mem_nil, or_false] at hv
    obtain ⟨v0, hv0, rfl⟩ := hv
    rcases hv0 with rfl | rfl | rfl | rfl | rfl | rfl <;> constructor <;> omega
  · simp only [hex_poly_tmp, evens, List.mem_map, List.mem_range] at hr0
    obtain ⟨e, ⟨a, ha, rfl⟩, rfl⟩ := hr0
    intro v hv
    have hq : (2 * (j : ℤ) + 1) * N ≤ ((N : ℤ) - 3) * N :=
      mul_le_mul_of_nonneg_right (by omega) h0
    have hqpos : (0:ℤ) ≤ (2 * (j : ℤ) + 1) * N := mul_nonneg (by positivity) h0
    have hid : ((N : ℤ) - 3) * N = (N : ℤ) * N - 3 * N := by ring
    simp only [List.mem_map, List.mem_cons, List.not_mem_nil, or_false] at hv
    obtain ⟨v0, hv0, rfl⟩ := hv
    rcases hv0 with rfl | rfl | rfl | rfl | rfl | rfl <;> constructor <;> omega

theorem rect_centr_mem_bounds {N : ℕ} (h4 : 4 < N) :
    ∀ c ∈ rect_centr N, 0 ≤ c - N ∧ c + N < (N : ℤ) * N := by
  intro c hc
  simp only [rect_centr, List.mem_flatMap, List.mem_range, List.mem_map] at hc
  obtain ⟨j, hj, i, hi, rfl⟩ := hc
  have h0 : (0 : ℤ) ≤ (N : ℤ) := by positivity
  have hjN : ((j : ℤ) + 1) * N ≤ ((N : ℤ) - 2) * N :=
    mul_le_mul_of_nonneg_right (by omega) h0
  have hj1 : (N : ℤ) * 1 ≤ ((j : ℤ) + 1) * N := by
    calc (N : ℤ) * 1 = 1 * N := by ring
      _ ≤ ((j : ℤ) + 1) * N := mul_le_mul_of_nonneg_right (by omega) h0
  have hid : ((N : ℤ) - 2) * N = (N : ℤ) * N - 2 * N := by ring
  constructor <;> omega

theorem rect_stencil_bounds {N : ℕ} (h4 : 4 < N) :
    ∀ r ∈ rect_stencil N, ∀ v ∈ r, 0 ≤ v ∧ v < (N : ℤ) * N := by
  intro r hr
  simp only [rect_stencil, List.mem_map] at hr
  obtain ⟨c, hc, rfl⟩ := hr
  have hb := rect_centr_mem_bounds h4 c hc
  intro v hv
  simp only [List.mem_cons, List.not_mem_nil, or_false] at hv
  rcases hv with rfl | rfl | rfl | rfl | rfl <;> constructor <;> omega

theorem rect_polys_bounds {N : ℕ} (h4 : 4 < N) :
    ∀ r ∈ rect_polys N, ∀ v ∈ r, 0 ≤ v ∧ v < (N : ℤ) * N := by
  intro r hr
  simp only [rect_polys, List.mem_flatMap, List.mem_range, List.mem_map] at hr
  obtain ⟨i, hi, j, hj, rfl⟩ := hr
  have h0 : (0 : ℤ) ≤ (N : ℤ) := by positivity
  have hjN : ((j : ℤ) + 1) * N ≤ ((N : ℤ) - 1) * N :=
    mul_le_mul_of_nonneg_right (by omega) h0
  have hj0 : (0 : ℤ) ≤ (j : ℤ) * N := mul_nonneg (by positivity) h0
  have hstepj : (j : ℤ) * N + N = ((j : ℤ) + 1) * N := by ring
  have hid : ((N : ℤ) - 1) * N = (N : ℤ) * N - N := by ring
  intro v hv
  simp only [List.mem_cons, List.not_mem_nil, or_false] at hv
  rcases hv with rfl | rfl | rfl | rfl <;> constructor <;> omega

/-- C10: every node index stored in a connectivity artifact — boundary
lists, rectangular 5-point stencils, both hexagonal stencil families, and
the polygon lists — lies in `[0, N²)`, so indexing the coordinate or
solution arrays with them is in bounds. -/
theorem C10_connectivity_indices_in_bounds (N : ℕ) (hN : validN N = true) :
    (∀ v ∈ hex_bcs_all N, 0 ≤ v ∧ v < ((N2 N : ℕ) : ℤ)) ∧
    (∀ r ∈ hex_stencil_r N, ∀ v ∈ r, 0 ≤ v ∧ v < ((N2 N : ℕ) : ℤ)) ∧
    (∀ r ∈ hex_stencil_l N, ∀ v ∈ r, 0 ≤ v ∧ v < ((N2 N : ℕ) : ℤ)) ∧
    (∀ r ∈ hex_polys N, ∀ v ∈ r, 0 ≤ v ∧ v < ((N2 N : ℕ) : ℤ)) ∧
    (∀ v ∈ rect_bcs_all N, 0 ≤ v ∧ v < ((N2 N : ℕ) : ℤ)) ∧
    (∀ r ∈ rect_stencil N, ∀ v ∈ r, 0 ≤ v ∧ v < ((N2 N : ℕ) : ℤ)) ∧
    (∀ r ∈ rect_polys N, ∀ v ∈ r, 0 ≤ v ∧ v < ((N2 N : ℕ) : ℤ)) := by
  have hN' : N % 2 = 0 ∧ 4 < N := by simpa [validN] using hN
  obtain ⟨h2, h4⟩ := hN'
  have hcast : ((N2 N : ℕ) : ℤ) = (N : ℤ) * N := by simp [N2]
  rw [hcast]
  refine ⟨hex_bcs_all_bounds h4, ?_, ?_, hex_polys_bounds h2 h4,
    rect_bcs_all_bounds h4, rect_stencil_bounds h4, rect_polys_bounds h4⟩
  · intro r hr v hv
    obtain ⟨q, rfl, hq1, hq2⟩ := hex_stencil_r_shape h2 h4 r hr
    simp only [List.mem_cons, List.not_mem_nil, or_false] at hv
    rcases hv with rfl | rfl | rfl | rfl <;> constructor <;> omega
  · intro r hr v hv
    obtain ⟨q, rfl, hq1, hq2⟩ := hex_stencil_l_shape h2 h4 r hr
    simp only [List.mem_cons, List.not_mem_nil, or_false] at hv
    rcases hv with rfl | rfl | rfl | rfl <;> constructor <;> omega

theorem C10_connectivity_indices_in_bounds_witness :
    validN 6 = true ∧
    (∀ v ∈ hex_bcs_all 6, 0 ≤ v ∧ v < ((N2 6 : ℕ) : ℤ)) :=
  ⟨by decide, (C10_connectivity_indices_in_bounds 6 (by decide)).1⟩

/-! ## Dirichlet boundary rows -/

theorem getD_map_of_lt {α β : Type} (f : α → β) (l : List α) {m : ℕ}
    (h : m < l.length) (d : β) (d' : α) : (l.map f).getD m d = f (l.getD m d') := by
  rw [List.getD_eq_getElem (l.map f) d (by simpa using h),
    List.getD_eq_getElem l d' h, List.getElem_map]

/-- Rows `k < len(bcs)` of `rect_M` are pure Dirichlet unit rows. -/
theorem rect_M_boundary_row {N : ℕ} {k : ℕ} (hk : k < (rect_bcs_all N).length)
    (c : ℕ) :
    rect_M N k c = if (c : ℤ) = (rect_bcs_all N).getD k 0 then 1 else 0 := by
  have hA : rect_A N k c = 0 := by
    unfold rect_A
    exact if_neg (fun hcon => absurd hcon.1 (by omega))
  have hI : rect_I_bc N k c =
      if (c : ℤ) = (rect_bcs_all N).getD k 0 then 1 else 0 := by
    unfold rect_I_bc
    by_cases h : (rect_bcs_all N).getD k 0 = (c : ℤ)
    · rw [if_pos ⟨hk, h⟩, if_pos h.symm]
    · rw [if_neg (fun hc => h hc.2), if_neg (fun hc => h hc.symm)]
  unfold rect_M
  rw [hA, hI, add_zero]

/-- Rows `k < len(bcs)` of `hex_M` are pure Dirichlet unit rows. -/
theorem hex_M_boundary_row {N : ℕ} {k : ℕ} (hk : k < (hex_bcs_all N).length)
    (c : ℕ) :
    hex_M N k c = if (c : ℤ) = (hex_bcs_all N).getD k 0 then 1 else 0 := by
  have hAr : hex_A_r N k c = 0 := by
    unfold hex_A_r
    exact if_neg (fun hcon => absurd hcon.1 (by omega))
  have hAl : hex_A_l N k c = 0 := by
    unfold hex_A_l
    exact if_neg (fun hcon => absurd hcon.1 (by omega))
  have hI : hex_I_bc N k c =
      if (c : ℤ) = (hex_bcs_all N).getD k 0 then 1 else 0 := by
    unfold hex_I_bc
    by_cases h : (hex_bcs_all N).getD k 0 = (c : ℤ)
    · rw [if_pos ⟨hk, h⟩, if_pos h.symm]
    · rw [if_neg (fun hc => h hc.2), if_neg (fun hc => h hc.symm)]
  unfold hex_M
  rw [hAr, hAl, hI, add_zero, add_zero]

/-- The dot product of a unit row with any vector picks out the entry at
the unit column. -/
theorem rowDot_unit_row {N : ℕ} (M : ℕ → ℕ → ℚ) (r : ℕ) (u : ℕ → ℚ) {B : ℤ}
    (hB0 : 0 ≤ B) (hBlt : B < ((N2 N : ℕ) : ℤ))
    (hM : ∀ c, M r c = if (c : ℤ) = B then 1 else 0) :
    rowDot N M r u = u B.toNat := by
  unfold rowDot
  have h1 : ∀ c ∈ Finset.range (N2 N), M r c * u c =
      if c = B.toNat then u c else 0 := by
    intro c _
    rw [hM c]
    by_cases h : c = B.toNat
    · rw [if_pos (by omega), if_pos h, one_mul]
    · rw [if_neg (by omega), if_neg h, zero_mul]
  rw [Finset.sum_congr rfl h1, Finset.sum_ite_eq' (Finset.range (N2 N)) B.toNat u,
    if_pos (Finset.mem_range.mpr (by omega))]

/-- C7: for each mesh, row `k` of the assembled matrix `M` (for `k` a
boundary-list position) has a single unit coefficient at the column equal
to the `k`-th boundary node index (which is in range), and the initial
right-hand side at row `k` is the oracle at `t = 0` at that node's
coordinates. -/
theorem C7_dirichlet_rows_and_rhs (N : ℕ) (hN : validN N = true)
    (f : ℚ → ℚ → ℚ → ℚ) :
    (∀ k < (rect_bcs_all N).length,
      (0 ≤ (rect_bcs_all N).getD k 0 ∧ (rect_bcs_all N).getD k 0 < ((N2 N : ℕ) : ℤ)) ∧
      (∀ c, rect_M N k c = if (c : ℤ) = (rect_bcs_all N).getD k 0 then 1 else 0) ∧
      rect_rhs0 f N k =
        f 0 (rect_xc N ((rect_bcs_all N).getD k 0).toNat)
            (rect_yc N ((rect_bcs_all N).getD k 0).toNat)) ∧
    (∀ k < (hex_bcs_all N).length,
      (0 ≤ (hex_bcs_all N).getD k 0 ∧ (hex_bcs_all N).getD k 0 < ((N2 N : ℕ) : ℤ)) ∧
      (∀ c, hex_M N k c = if (c : ℤ) = (hex_bcs_all N).getD k 0 then 1 else 0) ∧
      hex_rhs0 f N k =
        f 0 (hex_xc N ((hex_bcs_all N).getD k 0).toNat)
            (hex_yc N ((hex_bcs_all N).getD k 0).toNat)) := by
  have hN' : N % 2 = 0 ∧ 4 < N := by simpa [validN] using hN
  obtain ⟨h2, h4⟩ := hN'
  have hcast : ((N2 N : ℕ) : ℤ) = (N : ℤ) * N := by simp [N2]
  constructor
  · intro k hk
    refine ⟨?_, rect_M_boundary_row hk, by simp [rect_rhs0, hk]⟩
    have hb := rect_bcs_all_bounds h4 _ (getD_mem_of_lt 0 hk)
    rw [hcast]
    exact hb
  · intro k hk
    refine ⟨?_, hex_M_boundary_row hk, by simp [hex_rhs0, hk]⟩
    have hb := hex_bcs_all_bounds h4 _ (getD_mem_of_lt 0 hk)
    rw [hcast]
    exact hb

theorem C7_dirichlet_rows_and_rhs_witness :
    validN 6 = true ∧
    (∀ c, rect_M 6 0 c = if (c : ℤ) = (rect_bcs_all 6).getD 0 0 then 1 else 0) :=
  ⟨by decide,
   ((C7_dirichlet_rows_and_rhs 6 (by decide) (fun _ _ _ => 0)).1 0 (by decide)).2.1⟩

/-! ## The per-step solve and its boundary values -/

/-- C3 (amended): after one per-step transition (fill boundary rows of `b`
from the oracle at the current time `t`, fill interior rows with
`-u[center]/dt`, solve `M·u_new = b`, advance `t` by `dt`), any solution
vector `u_new` has, at every boundary node, the oracle value at the time
`t` at which the right-hand side was formed — the pre-advance time, not
the new time level `t + dt`. -/
theorem C3_step_boundary_at_formation_time (N : ℕ) (hN : validN N = true)
    (f : ℚ → ℚ → ℚ → ℚ) (t : ℚ) (ur pr ur' uh ph uh' : ℕ → ℚ)
    (hrect : IsSolution N (rect_M N) (rect_rhs_step f N t ur pr) ur')
    (hhex : IsSolution N (hex_M N) (hex_rhs_step f N t uh ph) uh') :
    (∀ k < (rect_bcs_all N).length,
      ur' ((rect_bcs_all N).getD k 0).toNat =
        f t (rect_xc N ((rect_bcs_all N).getD k 0).toNat)
            (rect_yc N ((rect_bcs_all N).getD k 0).toNat)) ∧
    (∀ k < (hex_bcs_all N).length,
      uh' ((hex_bcs_all N).getD k 0).toNat =
        f t (hex_xc N ((hex_bcs_all N).getD k 0).toNat)
            (hex_yc N ((hex_bcs_all N).getD k 0).toNat)) := by
  have hN' : N % 2 = 0 ∧ 4 < N := by simpa [validN] using hN
  obtain ⟨h2, h4⟩ := hN'
  have h6N : 6 * N ≤ N * N := Nat.mul_le_mul_right N (by omega)
  have hcast : ((N2 N : ℕ) : ℤ) = (N : ℤ) * N := by simp [N2]
  constructor
  · intro k hk
    have hlen : (rect_bcs_all N).length = 4 * N - 4 := length_rect_bcs_all h4
    have hkN2 : k < N2 N := by unfold N2; omega
    have hb := rect_bcs_all_bounds h4 _ (getD_mem_of_lt 0 hk)
    have hrow := hrect k hkN2
    rw [rowDot_unit_row (rect_M N) k ur' hb.1 (by rw [hcast]; exact hb.2)
      (rect_M_boundary_row hk)] at hrow
    rw [hrow]
    unfold rect_rhs_step
    rw [if_pos hk]
  · intro k hk
    have hlen : (hex_bcs_all N).length = 6 * N - 8 := length_hex_bcs_all h2 h4
    have hkN2 : k < N2 N := by unfold N2; omega
    have hb := hex_bcs_all_bounds h4 _ (getD_mem_of_lt 0 hk)
    have hrow := hhex k hkN2
    rw [rowDot_unit_row (hex_M N) k uh' hb.1 (by rw [hcast]; exact hb.2)
      (hex_M_boundary_row hk)] at hrow
    rw [hrow]
    unfold hex_rhs_step
    rw [if_pos hk]

theorem C3_step_boundary_at_formation_time_witness :
    validN 6 = true ∧
    IsSolution 6 (hex_M 6)
      (hex_rhs_step (fun s _ _ => s) 6 0 (fun _ => 0) (fun _ => 0)) (fun _ => 0) ∧
    (∀ k < (hex_bcs_all 6).length,
      (fun _ : ℕ => (0 : ℚ)) (((hex_bcs_all 6).getD k 0).toNat) =
        (fun s _ _ => s) (0 : ℚ) (hex_xc 6 (((hex_bcs_all 6).getD k 0).toNat))
          (hex_yc 6 (((hex_bcs_all 6).getD k 0).toNat))) := by
  have hsol : IsSolution 6 (hex_M 6)
      (hex_rhs_step (fun s _ _ => s) 6 0 (fun _ => 0) (fun _ => 0)) (fun _ => 0) := by
    intro r hr
    have h1 : rowDot 6 (hex_M 6) r (fun _ => 0) = 0 := by simp [rowDot]
    rw [h1]
    unfold hex_rhs_step
    split_ifs <;> simp
  have hsolr : IsSolution 6 (rect_M 6)
      (rect_rhs_step (fun s _ _ => s) 6 0 (fun _ => 0) (fun _ => 0)) (fun _ => 0) := by
    intro r hr
    have h1 : rowDot 6 (rect_M 6) r (fun _ => 0) = 0 := by simp [rowDot]
    rw [h1]
    unfold rect_rhs_step
    split_ifs <;> simp
  exact ⟨by decide, hsol,
    (C3_step_boundary_at_formation_time 6 (by decide) (fun s _ _ => s) 0
      (fun _ => 0) (fun _ => 0) (fun _ => 0) (fun _ => 0) (fun _ => 0) (fun _ => 0)
      hsolr hsol).2⟩

/-- C3 counterexample: with the oracle `f(t,x,y) = t` (the oracle is a
configuration input), starting at `t = 0` from `u = 0`, the zero vector
solves the stepped system, yet its value at the first boundary node is
`0 ≠ 0 + dt`: the boundary entries of `u_new` do not equal the oracle at
the new time level `t + dt`. -/
theorem C3_boundary_not_at_new_time_counterexample :
    IsSolution 6 (hex_M 6)
      (hex_rhs_step (fun s _ _ => s) 6 0 (fun _ => 0) (fun _ => 0)) (fun _ => 0) ∧
    (fun _ : ℕ => (0 : ℚ)) (((hex_bcs_all 6).getD 0 0).toNat) ≠
      (fun s _ _ => s) ((0 : ℚ) + dt) (hex_xc 6 (((hex_bcs_all 6).getD 0 0).toNat))
        (hex_yc 6 (((hex_bcs_all 6).getD 0 0).toNat)) := by
  constructor
  · intro r hr
    have h1 : rowDot 6 (hex_M 6) r (fun _ => 0) = 0 := by simp [rowDot]
    rw [h1]
    unfold hex_rhs_step
    split_ifs <;> simp
  · show (0 : ℚ) ≠ 0 + dt
    rw [dt]
    norm_num

/-! ## Stencil rows of the assembled matrices -/

/-- Right-family stencil row `m` of `hex_M`: the diagonal coefficient
`-4mu/h² - 1/dt` sits at the column of tuple position 1 (`q+N`), and the
three off-diagonal coefficients `4mu/(3h²)` at the other tuple columns. -/
theorem hex_M_right_stencil_row {N : ℕ} (h2 : N % 2 = 0) (h4 : 4 < N) {m : ℕ}
    (hm : m < (hex_stencil_r N).length) :
    ∃ q : ℤ, (hex_stencil_r N).getD m [] = [q, q + N, q + N + 1, q + 2 * N] ∧
      1 ≤ q ∧ q + 2 * N < (N : ℤ) * N ∧
      ∀ c : ℕ, hex_M N ((hex_bcs_all N).length + m) c =
        if (c : ℤ) = q + N then -(mu * 4) / (hstep N) ^ 2 - 1 / dt
        else if (c : ℤ) = q ∨ (c : ℤ) = q + N + 1 ∨ (c : ℤ) = q + 2 * N then
          mu * 4 / (3 * (hstep N) ^ 2)
        else 0 := by
  obtain ⟨q, hq, hq1, hq2⟩ := hex_stencil_r_shape h2 h4 _ (getD_mem_of_lt [] hm)
  refine ⟨q, hq, hq1, hq2, ?_⟩
  intro c
  have hN6 : (6 : ℤ) ≤ (N : ℤ) := by exact_mod_cast (show 6 ≤ N by omega)
  have hI : hex_I_bc N ((hex_bcs_all N).length + m) c = 0 := by
    unfold hex_I_bc
    exact if_neg (fun hc => absurd hc.1 (by omega))
  have hAl : hex_A_l N ((hex_bcs_all N).length + m) c = 0 := by
    unfold hex_A_l
    exact if_neg (fun hc => absurd hc.1 (by omega))
  have hAr : hex_A_r N ((hex_bcs_all N).length + m) c =
      (((List.range 4).map (fun p =>
        if ([q, q + N, q + N + 1, q + 2 * N] : List ℤ).getD p 0 = (c : ℤ)
        then (hex_elmt_r N).getD p 0 else 0)).sum) := by
    unfold hex_A_r
    rw [if_pos ⟨by omega, by omega⟩]
    rw [Nat.add_sub_cancel_left, hq]
  unfold hex_M
  rw [hI, hAl, hAr, zero_add, add_zero]
  have hrange : List.range 4 = [0, 1, 2, 3] := by decide
  rw [hrange]
  simp only [List.map_cons, List.map_nil, List.sum_cons, List.sum_nil, List.getD_cons_zero,
    List.getD_cons_succ, hex_elmt_r]
  split_ifs <;> first | omega | ring

/-- Left-family stencil row `m` of `hex_M`: the diagonal coefficient sits
at the column of tuple position 2 (`q+N`), the off-diagonals at the other
tuple columns. -/
theorem hex_M_left_stencil_row {N : ℕ} (h2 : N % 2 = 0) (h4 : 4 < N) {m : ℕ}
    (hm : m < (hex_stencil_l N).length) :
    ∃ q : ℤ, (hex_stencil_l N).getD m [] = [q, q + N - 1, q + N, q + 2 * N] ∧
      1 ≤ q ∧ q + 2 * N < (N : ℤ) * N ∧
      ∀ c : ℕ,
        hex_M N ((hex_bcs_all N).length + (hex_stencil_r N).length + m) c =
        if (c : ℤ) = q + N then -(mu * 4) / (hstep N) ^ 2 - 1 / dt
        else if (c : ℤ) = q ∨ (c : ℤ) = q + N - 1 ∨ (c : ℤ) = q + 2 * N then
          mu * 4 / (3 * (hstep N) ^ 2)
        else 0 := by
  obtain ⟨q, hq, hq1, hq2⟩ := hex_stencil_l_shape h2 h4 _ (getD_mem_of_lt [] hm)
  refine ⟨q, hq, hq1, hq2, ?_⟩
  intro c
  have hN6 : (6 : ℤ) ≤ (N : ℤ) := by exact_mod_cast (show 6 ≤ N by omega)
  have hI : hex_I_bc N ((hex_bcs_all N).length + (hex_stencil_r N).length + m) c = 0 := by
    unfold hex_I_bc
    exact if_neg (fun hc => absurd hc.1 (by omega))
  have hAr : hex_A_r N ((hex_bcs_all N).length + (hex_stencil_r N).length + m) c = 0 := by
    unfold hex_A_r
    exact if_neg (fun hc => absurd hc.2 (by omega))
  have hAl : hex_A_l N ((hex_bcs_all N).length + (hex_stencil_r N).length + m) c =
      (((List.range 4).map (fun p =>
        if ([q, q + N - 1, q + N, q + 2 * N] : List ℤ).getD p 0 = (c : ℤ)
        then (hex_elmt_l N).getD p 0 else 0)).sum) := by
    unfold hex_A_l
    rw [if_pos ⟨by omega, by omega⟩]
    rw [Nat.add_sub_cancel_left, hq]
  unfold hex_M
  rw [hI, hAl, hAr, zero_add, zero_add]
  have hrange : List.range 4 = [0, 1, 2, 3] := by decide
  rw [hrange]
  simp only [List.map_cons, List.map_nil, List.sum_cons, List.sum_nil, List.getD_cons_zero,
    List.getD_cons_succ, hex_elmt_l]
  split_ifs <;> first | omega | ring

theorem hex_coeff_signs {N : ℕ} (h4 : 4 < N) :
    0 < mu * 4 / (3 * (hstep N) ^ 2) ∧
    -(mu * 4) / (hstep N) ^ 2 - 1 / dt < 0 := by
  have hN : (0 : ℚ) < (N : ℚ) := by exact_mod_cast (show 0 < N by omega)
  have hh : (0 : ℚ) < hstep N := by rw [hstep]; positivity
  have hh2 : (0 : ℚ) < (hstep N) ^ 2 := by positivity
  have hmu : (0 : ℚ) < mu * 4 := by rw [mu]; norm_num
  constructor
  · exact div_pos hmu (by positivity)
  · have h1 : (0 : ℚ) < mu * 4 / (hstep N) ^ 2 := div_pos hmu hh2
    have h2 : (0 : ℚ) < 1 / dt := by rw [dt]; norm_num
    have : -(mu * 4) / (hstep N) ^ 2 = -(mu * 4 / (hstep N) ^ 2) := by ring
    rw [this]
    linarith

/-- C4: every right-family stencil row of the assembled hexagonal matrix
carries the diagonal coefficient `-4mu/h² - 1/dt` at the column of tuple
position 1 and the off-diagonal coefficient `4mu/(3h²)` at the three other
tuple columns (and nothing else); every left-family row carries the
diagonal at tuple position 2; the two coefficient values are distinct and
the off-diagonal one nonzero, so each stencil row has exactly three
off-diagonal entries and one diagonal entry. -/
theorem C4_hex_stencil_coefficients (N : ℕ) (hN : validN N = true) :
    (∀ m < (hex_stencil_r N).length, ∃ q : ℤ,
      (hex_stencil_r N).getD m [] = [q, q + N, q + N + 1, q + 2 * N] ∧
      ((hex_stencil_r N).getD m []).getD 1 0 = q + N ∧
      (∀ c : ℕ, hex_M N ((hex_bcs_all N).length + m) c =
        if (c : ℤ) = q + N then -(mu * 4) / (hstep N) ^ 2 - 1 / dt
        else if (c : ℤ) = q ∨ (c : ℤ) = q + N + 1 ∨ (c : ℤ) = q + 2 * N then
          mu * 4 / (3 * (hstep N) ^ 2)
        else 0)) ∧
    (∀ m < (hex_stencil_l N).length, ∃ q : ℤ,
      (hex_stencil_l N).getD m [] = [q, q + N - 1, q + N, q + 2 * N] ∧
      ((hex_stencil_l N).getD m []).getD 2 0 = q + N ∧
      (∀ c : ℕ,
        hex_M N ((hex_bcs_all N).length + (hex_stencil_r N).length + m) c =
        if (c : ℤ) = q + N then -(mu * 4) / (hstep N) ^ 2 - 1 / dt
        else if (c : ℤ) = q ∨ (c : ℤ) = q + N - 1 ∨ (c : ℤ) = q + 2 * N then
          mu * 4 / (3 * (hstep N) ^ 2)
        else 0)) ∧
    mu * 4 / (3 * (hstep N) ^ 2) ≠ -(mu * 4) / (hstep N) ^ 2 - 1 / dt ∧
    mu * 4 / (3 * (hstep N) ^ 2) ≠ 0 := by
  have hN' : N % 2 = 0 ∧ 4 < N := by simpa [validN] using hN
  obtain ⟨h2, h4⟩ := hN'
  obtain ⟨hpos, hneg⟩ := hex_coeff_signs (N := N) h4
  refine ⟨?_, ?_, by linarith, by linarith⟩
  · intro m hm
    obtain ⟨q, hq, _, _, hrow⟩ := hex_M_right_stencil_row h2 h4 hm
    exact ⟨q, hq, by rw [hq]; rfl, hrow⟩
  · intro m hm
    obtain ⟨q, hq, _, _, hrow⟩ := hex_M_left_stencil_row h2 h4 hm
    exact ⟨q, hq, by rw [hq]; rfl, hrow⟩

theorem C4_hex_stencil_coefficients_witness :
    validN 6 = true ∧ 0 < (hex_stencil_r 6).length ∧
    (∃ q : ℤ, (hex_stencil_r 6).getD 0 [] = [q, q + 6, q + 6 + 1, q + 2 * 6] ∧
      ((hex_stencil_r 6).getD 0 []).getD 1 0 = q + 6 ∧
      (∀ c : ℕ, hex_M 6 ((hex_bcs_all 6).length + 0) c =
        if (c : ℤ) = q + 6 then -(mu * 4) / (hstep 6) ^ 2 - 1 / dt
        else if (c : ℤ) = q ∨ (c : ℤ) = q + 6 + 1 ∨ (c : ℤ) = q + 2 * 6 then
          mu * 4 / (3 * (hstep 6) ^ 2)
        else 0)) :=
  ⟨by decide, by decide,
   by exact_mod_cast (C4_hex_stencil_coefficients 6 (by decide)).1 0 (by decide)⟩

/-! ## Rectangular stencils: one row per interior node -/

theorem mem_rect_centr {N : ℕ} {c : ℤ} :
    c ∈ rect_centr N ↔
      ∃ j i : ℕ, j < N - 2 ∧ i < N - 2 ∧ c = ((j : ℤ) + 1) * N + ((i : ℤ) + 1) := by
  simp only [rect_centr, List.mem_flatMap, List.mem_map, List.mem_range]
  constructor
  · rintro ⟨j, hj, i, hi, rfl⟩
    exact ⟨j, i, hj, hi, rfl⟩
  · rintro ⟨j, i, hj, hi, rfl⟩
    exact ⟨j, hj, i, hi, rfl⟩

theorem nodup_rect_centr (N : ℕ) : (rect_centr N).Nodup := by
  rw [rect_centr, List.nodup_flatMap]
  constructor
  · intro j _
    exact List.Nodup.map (fun i1 i2 h => by omega) (List.nodup_range _)
  · refine (List.pairwise_lt_range _).imp ?_
    intro a b hab
    intro v hva hvb
    simp only [List.mem_map, List.mem_range] at hva hvb
    obtain ⟨i1, hi1, rfl⟩ := hva
    obtain ⟨i2, hi2, hv⟩ := hvb
    have h0 : (0 : ℤ) ≤ (N : ℤ) := by positivity
    have hmul : ((a : ℤ) + 1 + 1) * N ≤ ((b : ℤ) + 1) * N :=
      mul_le_mul_of_nonneg_right (by omega) h0
    have hexp : ((a : ℤ) + 1 + 1) * N = ((a : ℤ) + 1) * N + N := by ring
    omega

theorem count_rect_centr_interior {N : ℕ} {j i : ℕ}
    (hj : 1 ≤ j) (hj2 : j ≤ N - 2) (hi : 1 ≤ i) (hi2 : i ≤ N - 2) :
    (rect_centr N).count ((j : ℤ) * N + i) = 1 := by
  apply List.count_eq_one_of_mem (nodup_rect_centr N)
  rw [mem_rect_centr]
  refine ⟨j - 1, i - 1, by omega, by omega, ?_⟩
  have hj' : ((j - 1 : ℕ) : ℤ) = (j : ℤ) - 1 := by omega
  have hi' : ((i - 1 : ℕ) : ℤ) = (i : ℤ) - 1 := by omega
  rw [hj', hi']
  ring

/-- Stencil row `m` of `rect_M`: 5-point stencil columns around the center
`rect_centr[m]`, diagonal `-1/dt - 4mu/h²` at the center column and
`mu/h²` at the four neighbour columns. -/
theorem rect_M_stencil_row {N : ℕ} (h4 : 4 < N) {m : ℕ}
    (hm : m < (rect_centr N).length) :
    (rect_stencil N).getD m [] =
      [(rect_centr N).getD m 0 - N, (rect_centr N).getD m 0 - 1,
       (rect_centr N).getD m 0, (rect_centr N).getD m 0 + 1,
       (rect_centr N).getD m 0 + N] ∧
    ∀ col : ℕ, rect_M N ((rect_bcs_all N).length + m) col =
      if (col : ℤ) = (rect_centr N).getD m 0 then -1 / dt - mu * 4 / (hstep N) ^ 2
      else if (col : ℤ) = (rect_centr N).getD m 0 - N ∨
              (col : ℤ) = (rect_centr N).getD m 0 - 1 ∨
              (col : ℤ) = (rect_centr N).getD m 0 + 1 ∨
              (col : ℤ) = (rect_centr N).getD m 0 + N then mu / (hstep N) ^ 2
      else 0 := by
  have hshape : (rect_stencil N).getD m [] =
      [(rect_centr N).getD m 0 - N, (rect_centr N).getD m 0 - 1,
       (rect_centr N).getD m 0, (rect_centr N).getD m 0 + 1,
       (rect_centr N).getD m 0 + N] :=
    getD_map_of_lt _ _ hm [] 0
  refine ⟨hshape, ?_⟩
  intro col
  have hm' : m < (rect_stencil N).length := by
    rw [length_rect_stencil, ← length_rect_centr]
    exact hm
  have hN2 : (2 : ℤ) ≤ (N : ℤ) := by exact_mod_cast (show 2 ≤ N by omega)
  have hI : rect_I_bc N ((rect_bcs_all N).length + m) col = 0 := by
    unfold rect_I_bc
    exact if_neg (fun hcon => absurd hcon.1 (by omega))
  unfold rect_M rect_A
  rw [hI, zero_add, if_pos ⟨by omega, by omega⟩, Nat.add_sub_cancel_left, hshape]
  have hrange : List.range 5 = [0, 1, 2, 3, 4] := by decide
  rw [hrange]
  simp only [List.map_cons, List.map_nil, List.sum_cons, List.sum_nil,
    List.getD_cons_zero, List.getD_cons_succ, rect_elmt]
  split_ifs <;> first | omega | ring

/-- C5: in the assembled rectangular matrix, with `h = 1/N`, every stencil
row is the 5-point stencil `{c-N, c-1, c, c+1, c+N}` of its center
`c = rect_centr[m]` (an interior node `(j+1)*N + (i+1)`), carrying
`mu/h²` at the four neighbour columns and `-1/dt - 4mu/h²` at column `c`
and nothing elsewhere; and every interior node `j*N+i` with
`1 ≤ i,j ≤ N-2` is the center of exactly one stencil row. -/
theorem C5_rect_stencil_rows (N : ℕ) (hN : validN N = true) :
    hstep N = 1 / N ∧
    (∀ m < (rect_centr N).length,
      (rect_stencil N).getD m [] =
        [(rect_centr N).getD m 0 - N, (rect_centr N).getD m 0 - 1,
         (rect_centr N).getD m 0, (rect_centr N).getD m 0 + 1,
         (rect_centr N).getD m 0 + N] ∧
      (∃ j i : ℕ, j < N - 2 ∧ i < N - 2 ∧
        (rect_centr N).getD m 0 = ((j : ℤ) + 1) * N + ((i : ℤ) + 1)) ∧
      (∀ col : ℕ, rect_M N ((rect_bcs_all N).length + m) col =
        if (col : ℤ) = (rect_centr N).getD m 0 then -1 / dt - mu * 4 / (hstep N) ^ 2
        else if (col : ℤ) = (rect_centr N).getD m 0 - N ∨
                (col : ℤ) = (rect_centr N).getD m 0 - 1 ∨
                (col : ℤ) = (rect_centr N).getD m 0 + 1 ∨
                (col : ℤ) = (rect_centr N).getD m 0 + N then mu / (hstep N) ^ 2
        else 0)) ∧
    (∀ j i : ℕ, 1 ≤ j → j ≤ N - 2 → 1 ≤ i → i ≤ N - 2 →
      (rect_centr N).count ((j : ℤ) * N + i) = 1) ∧
    mu / (hstep N) ^ 2 ≠ -1 / dt - mu * 4 / (hstep N) ^ 2 ∧
    mu / (hstep N) ^ 2 ≠ 0 := by
  have hN' : N % 2 = 0 ∧ 4 < N := by simpa [validN] using hN
  obtain ⟨h2, h4⟩ := hN'
  have hQ : (0 : ℚ) < (N : ℚ) := by exact_mod_cast (show 0 < N by omega)
  have hh : (0 : ℚ) < hstep N := by rw [hstep]; positivity
  have hh2 : (0 : ℚ) < (hstep N) ^ 2 := by positivity
  have hoff : (0 : ℚ) < mu / (hstep N) ^ 2 := div_pos (by rw [mu]; norm_num) hh2
  have hdiag : -1 / dt - mu * 4 / (hstep N) ^ 2 < 0 := by
    have h1 : (0 : ℚ) < mu * 4 / (hstep N) ^ 2 := div_pos (by rw [mu]; norm_num) hh2
    have h2' : (0 : ℚ) < 1 / dt := by rw [dt]; norm_num
    have : (-1 : ℚ) / dt = -(1 / dt) := by ring
    rw [this]
    linarith
  refine ⟨rfl, ?_, fun j i hj hj2 hi hi2 => count_rect_centr_interior hj hj2 hi hi2,
    by linarith, by linarith⟩
  intro m hm
  obtain ⟨hshape, hrow⟩ := rect_M_stencil_row h4 hm
  exact ⟨hshape, mem_rect_centr.mp (getD_mem_of_lt 0 hm), hrow⟩

theorem C5_rect_stencil_rows_witness :
    validN 6 = true ∧ (1 ≤ 1 ∧ (1 : ℕ) ≤ 6 - 2) ∧
    (rect_centr 6).count ((1 : ℤ) * 6 + 1) = 1 :=
  ⟨by decide, ⟨by decide, by decide⟩,
   (C5_rect_stencil_rows 6 (by decide)).2.2.1 1 1 (by decide) (by decide)
     (by decide) (by decide)⟩

/-! ## Coordinate bounds and normalisation -/

/-- Closed form of the cumulative sum: `hex_x_pre N j i` equals
`(3i + (i+j) % 2) / (2N)`. -/
theorem hex_x_pre_closed (N j : ℕ) :
    ∀ i, hex_x_pre N j i = ((3 * i + (i + j) % 2 : ℕ) : ℚ) / (2 * N) := by
  have h2N : (1 : ℚ) / N = 2 / (2 * N) := by
    rw [show ((2 : ℚ) / (2 * (N : ℚ))) = (2 * 1) / (2 * N) by norm_num,
      mul_div_mul_left 1 (N : ℚ) (by norm_num)]
  intro i
  induction i with
  | zero =>
    by_cases hj : j % 2 = 1
    · simp only [hex_x_pre, initoff, if_pos hj, off_x, hhat, Nat.cast_one, one_mul,
        Nat.mul_zero, Nat.zero_add, Nat.zero_mod]
      rw [hj, div_div]
      push_cast
      ring
    · simp only [hex_x_pre, initoff, if_neg hj, Nat.cast_zero, zero_mul,
        Nat.mul_zero, Nat.zero_add]
      rw [show j % 2 = 0 by omega]
      norm_num
  | succ i ih =>
    have hxp : hex_x_pre N j (i + 1) = hex_x_pre N j i + hex_dx N j i := rfl
    rw [hxp, ih]
    by_cases hpar : (i + 1) % 2 = j % 2
    · have hso : shortoff j i = true := by simp [shortoff, hpar]
      have harith : (3 * (i + 1) + (i + 1 + j) % 2 : ℕ) = (3 * i + (i + j) % 2) + 2 := by
        omega
      simp only [hex_dx, if_pos hso, short_x, hhat, harith]
      rw [h2N, div_add_div_same]
      push_cast
      ring
    · have hso : shortoff j i = false := by simp [shortoff, hpar]
      have harith : (3 * (i + 1) + (i + 1 + j) % 2 : ℕ) = (3 * i + (i + j) % 2) + 4 := by
        omega
      simp only [hex_dx, if_neg (by simp [hso] : ¬ shortoff j i = true), long_x, hhat, harith]
      have h4N : (2 : ℚ) * (1 / N) = 4 / (2 * N) := by
        rw [h2N]; ring
      rw [h4N, div_add_div_same]
      push_cast
      ring

theorem le_foldr_max (l : List ℚ) (a : ℚ) : ∀ x ∈ l, x ≤ l.foldr max a := by
  induction l with
  | nil => intro x hx; cases hx
  | cons y l ih =>
    intro x hx
    rcases List.mem_cons.mp hx with rfl | hx'
    · exact le_max_left _ _
    · exact le_trans (ih x hx') (le_max_right _ _)

theorem foldr_max_le (l : List ℚ) (a b : ℚ) (ha : a ≤ b) (h : ∀ x ∈ l, x ≤ b) :
    l.foldr max a ≤ b := by
  induction l with
  | nil => exact ha
  | cons y l ih =>
    exact max_le (h y (List.mem_cons_self y l)) (ih (fun x hx => h x (List.mem_cons_of_mem y hx)))

theorem hex_x_max_eq {N : ℕ} (h2 : N % 2 = 0) (h4 : 4 < N) :
    hex_x_max N = ((3 * N - 2 : ℕ) : ℚ) / (2 * N) := by
  have hval : hex_x_pre N 0 (N - 1) = ((3 * N - 2 : ℕ) : ℚ) / (2 * N) := by
    rw [hex_x_pre_closed]
    rw [show 3 * (N - 1) + (N - 1 + 0) % 2 = 3 * N - 2 by omega]
  apply le_antisymm
  · apply foldr_max_le
    · positivity
    · intro x hx
      simp only [hex_x_vals, List.mem_flatMap, List.mem_map, List.mem_range] at hx
      obtain ⟨j, hj, i, hi, rfl⟩ := hx
      rw [hex_x_pre_closed]
      have h2N : (0 : ℚ) < 2 * N := by
        have : (0 : ℚ) < (N : ℚ) := by exact_mod_cast (show 0 < N by omega)
        positivity
      rw [div_le_div_iff_of_pos_right h2N]
      exact_mod_cast (show 3 * i + (i + j) % 2 ≤ 3 * N - 2 by omega)
  · rw [← hval]
    apply le_foldr_max
    simp only [hex_x_vals, List.mem_flatMap, List.mem_map, List.mem_range]
    exact ⟨0, by omega, N - 1, by omega, rfl⟩

theorem hex_y_max_eq {N : ℕ} (h4 : 4 < N) :
    hex_y_max N = ((N - 1 : ℕ) : ℚ) := by
  apply le_antisymm
  · apply foldr_max_le
    · positivity
    · intro x hx
      simp only [hex_y_vals, List.mem_flatMap, List.mem_map, List.mem_range] at hx
      obtain ⟨j, hj, _, _, rfl⟩ := hx
      rw [hex_y_pre]
      exact_mod_cast (show j ≤ N - 1 by omega)
  · have hm : hex_y_pre (N - 1) ∈ hex_y_vals N := by
      simp only [hex_y_vals, List.mem_flatMap, List.mem_map, List.mem_range]
      exact ⟨N - 1, by omega, 0, by omega, rfl⟩
    have := le_foldr_max (hex_y_vals N) 0 _ hm
    simpa [hex_y_pre] using this

/-- C8: all normalised node coordinates lie in `[0,1]` on both meshes, and
on each axis some node attains exactly `0` and some node attains
exactly `1`. -/
theorem C8_coordinates_normalised (N : ℕ) (hN : validN N = true) :
    (∀ k < N2 N, 0 ≤ hex_xc N k ∧ hex_xc N k ≤ 1 ∧
      0 ≤ hex_yc N k ∧ hex_yc N k ≤ 1) ∧
    (∃ k < N2 N, hex_xc N k = 0) ∧ (∃ k < N2 N, hex_xc N k = 1) ∧
    (∃ k < N2 N, hex_yc N k = 0) ∧ (∃ k < N2 N, hex_yc N k = 1) ∧
    (∀ k < N2 N, 0 ≤ rect_xc N k ∧ rect_xc N k ≤ 1 ∧
      0 ≤ rect_yc N k ∧ rect_yc N k ≤ 1) ∧
    (∃ k < N2 N, rect_xc N k = 0) ∧ (∃ k < N2 N, rect_xc N k = 1) ∧
    (∃ k < N2 N, rect_yc N k = 0) ∧ (∃ k < N2 N, rect_yc N k = 1) := by
  have hN' : N % 2 = 0 ∧ 4 < N := by simpa [validN] using hN
  obtain ⟨h2, h4⟩ := hN'
  have hQ : (0 : ℚ) < (N : ℚ) := by exact_mod_cast (show 0 < N by omega)
  have hxmax := hex_x_max_eq h2 h4
  have hymax := hex_y_max_eq h4
  have hxmaxpos : (0 : ℚ) < hex_x_max N := by
    rw [hxmax]
    have : (0 : ℚ) < ((3 * N - 2 : ℕ) : ℚ) := by exact_mod_cast (show 0 < 3 * N - 2 by omega)
    positivity
  have hymaxpos : (0 : ℚ) < hex_y_max N := by
    rw [hymax]
    exact_mod_cast (show 0 < N - 1 by omega)
  have hNQ1 : (1 : ℚ) < (N : ℚ) := by exact_mod_cast (show 1 < N by omega)
  have hN2pos : 0 < N2 N := by unfold N2; positivity
  have hlastrow : (N - 1) * N < N2 N := by
    unfold N2
    exact (Nat.mul_lt_mul_right (show 0 < N by omega)).mpr (show N - 1 < N by omega)
  have hdivlast : ((N - 1) * N) / N = N - 1 := Nat.mul_div_cancel _ (by omega)
  have hmodlast : ((N - 1) * N) % N = 0 := Nat.mul_mod_left _ _
  have hNsmall : N - 1 < N2 N := by
    have h5 : 5 * N ≤ N * N := Nat.mul_le_mul_right N (by omega)
    unfold N2
    omega
  refine ⟨?_, ⟨0, hN2pos, ?_⟩, ⟨N - 1, hNsmall, ?_⟩,
    ⟨0, hN2pos, ?_⟩, ⟨(N - 1) * N, hlastrow, ?_⟩, ?_,
    ⟨0, hN2pos, ?_⟩, ⟨N - 1, hNsmall, ?_⟩,
    ⟨0, hN2pos, ?_⟩, ⟨(N - 1) * N, hlastrow, ?_⟩⟩
  · intro k hk
    refine ⟨?_, ?_, ?_, ?_⟩
    · unfold hex_xc
      apply div_nonneg _ (le_of_lt hxmaxpos)
      rw [hex_x_pre_closed]
      positivity
    · unfold hex_xc
      rw [div_le_one hxmaxpos, hxmax, hex_x_pre_closed]
      have h2N : (0 : ℚ) < 2 * N := by positivity
      rw [div_le_div_iff_of_pos_right h2N]
      exact_mod_cast (show 3 * (k % N) + (k % N + k / N) % 2 ≤ 3 * N - 2 by
        have := Nat.mod_lt k (show 0 < N by omega)
        omega)
    · unfold hex_yc
      apply div_nonneg _ (le_of_lt hymaxpos)
      rw [hex_y_pre]
      positivity
    · unfold hex_yc
      rw [div_le_one hymaxpos, hymax, hex_y_pre]
      have hdivk : k / N ≤ N - 1 := by
        have h1 : k / N < N := by
          rw [Nat.div_lt_iff_lt_mul (show 0 < N by omega)]
          unfold N2 at hk
          omega
        omega
      exact_mod_cast hdivk
  · unfold hex_xc
    rw [Nat.zero_div, Nat.zero_mod, hex_x_pre_closed]
    norm_num
  · unfold hex_xc
    rw [Nat.div_eq_of_lt (by omega), Nat.mod_eq_of_lt (by omega),
      hex_x_pre_closed, hxmax]
    rw [show 3 * (N - 1) + (N - 1 + 0) % 2 = 3 * N - 2 by omega]
    have hvpos : (0 : ℚ) < ((3 * N - 2 : ℕ) : ℚ) / (2 * N) := by
      have h1 : (0 : ℚ) < ((3 * N - 2 : ℕ) : ℚ) := by
        exact_mod_cast (show 0 < 3 * N - 2 by omega)
      positivity
    exact div_self (ne_of_gt hvpos)
  · unfold hex_yc
    rw [Nat.zero_div, hex_y_pre]
    norm_num
  · unfold hex_yc
    rw [hdivlast, hex_y_pre, hymax]
    exact div_self (ne_of_gt (by exact_mod_cast (show 0 < N - 1 by omega)))
  · intro k hk
    have hmodQ : ((k % N : ℕ) : ℚ) ≤ (N : ℚ) - 1 := by
      have h1 : k % N < N := Nat.mod_lt k (show 0 < N by omega)
      have h2' : ((k % N : ℕ) : ℚ) + 1 ≤ (N : ℚ) := by exact_mod_cast h1
      linarith
    have hdivQ : ((k / N : ℕ) : ℚ) ≤ (N : ℚ) - 1 := by
      have h1 : k / N < N := by
        rw [Nat.div_lt_iff_lt_mul (show 0 < N by omega)]
        unfold N2 at hk
        omega
      have h2' : ((k / N : ℕ) : ℚ) + 1 ≤ (N : ℚ) := by exact_mod_cast h1
      linarith
    refine ⟨?_, ?_, ?_, ?_⟩
    · unfold rect_xc
      exact div_nonneg (by positivity) (by linarith)
    · unfold rect_xc
      rw [div_le_one (by linarith)]
      exact hmodQ
    · unfold rect_yc
      exact div_nonneg (by positivity) (by linarith)
    · unfold rect_yc
      rw [div_le_one (by linarith)]
      exact hdivQ
  · unfold rect_xc
    rw [Nat.zero_mod]
    norm_num
  · unfold rect_xc
    rw [Nat.mod_eq_of_lt (by omega)]
    rw [show ((N - 1 : ℕ) : ℚ) = (N : ℚ) - 1 by push_cast [Nat.cast_sub (by omega : 1 ≤ N)]; ring]
    exact div_self (by linarith)
  · unfold rect_yc
    rw [Nat.zero_div]
    norm_num
  · unfold rect_yc
    rw [hdivlast]
    rw [show ((N - 1 : ℕ) : ℚ) = (N : ℚ) - 1 by push_cast [Nat.cast_sub (by omega : 1 ≤ N)]; ring]
    exact div_self (by linarith)

theorem C8_coordinates_normalised_witness :
    validN 6 = true ∧ (∃ k < N2 6, hex_xc 6 k = 1) :=
  ⟨by decide, (C8_coordinates_normalised 6 (by decide)).2.2.1⟩

end HexFdm
